import Mathlib

/-!
Verification development for the AI code-platform repository
(`src/services.py`, `src/models.py`, `src/serializers.py`).

The Python services are shallowly embedded as executable Lean functions.
Text is modelled as `List Char` (Python `str` indexing/slicing/len agree
with list operations on the character sequence).  External collaborators
(git clone, the Chroma vector store, the GitHub API, the language-model
client) are modelled by explicit environment records holding the outcome
of each external call; the control flow around them is translated from
the source.
-/

/-! ## Basic text utilities (Python `str` operations used by the services) -/

/-- Whitespace test matching Python `str.strip` / `str.split` defaults. -/
def pyIsSpace (c : Char) : Bool :=
  c = ' ' || c = '\t' || c = '\n' || c = '\r' || c = Char.ofNat 11 || c = Char.ofNat 12

/-- Python `str.strip()`: drop leading and trailing whitespace. -/
def stripPy (t : List Char) : List Char :=
  ((t.dropWhile pyIsSpace).reverse.dropWhile pyIsSpace).reverse

/-- Leftmost occurrence of `sep` in `text`: returns the part strictly before
the match and the part strictly after it.  `none` when `sep` does not occur
(`sep` is always nonempty at use sites). -/
def firstOccur (sep : List Char) : List Char → Option (List Char × List Char)
  | [] => none
  | c :: rest =>
      if sep.isPrefixOf (c :: rest) then some ([], (c :: rest).drop sep.length)
      else
        match firstOccur sep rest with
        | some p => some (c :: p.1, p.2)
        | none => none

/-- Substring test (Python `in` on strings, for nonempty needles). -/
def containsSub (sep text : List Char) : Bool :=
  (firstOccur sep text).isSome

theorem length_dropWhile_le (p : Char → Bool) : ∀ l : List Char, (l.dropWhile p).length ≤ l.length
  | [] => Nat.le_refl _
  | c :: rest => by
      rw [List.dropWhile]
      cases p c with
      | true => exact Nat.le_succ_of_le (length_dropWhile_le p rest)
      | false => exact Nat.le_refl _

theorem length_stripPy_le (t : List Char) : (stripPy t).length ≤ t.length := by
  unfold stripPy
  rw [List.length_reverse]
  calc ((t.dropWhile pyIsSpace).reverse.dropWhile pyIsSpace).length
      ≤ (t.dropWhile pyIsSpace).reverse.length := length_dropWhile_le _ _
    _ = (t.dropWhile pyIsSpace).length := List.length_reverse _
    _ ≤ t.length := length_dropWhile_le _ _

theorem firstOccur_eq (sep : List Char) :
    ∀ text a b, firstOccur sep text = some (a, b) → text = a ++ sep ++ b := by
  intro text
  induction text with
  | nil => intro a b h; simp [firstOccur] at h
  | cons c rest ih =>
      intro a b h
      rw [firstOccur] at h
      by_cases hp : sep.isPrefixOf (c :: rest)
      · rw [if_pos hp] at h
        have hpre : sep <+: (c :: rest) := List.isPrefixOf_iff_prefix.mp hp
        have := List.prefix_iff_eq_append.mp hpre
        cases h
        simpa using this.symm
      · rw [if_neg hp] at h
        cases hfo : firstOccur sep rest with
        | none => rw [hfo] at h; cases h
        | some p =>
            rw [hfo] at h
            cases h
            have := ih p.1 p.2 hfo
            simp [this]

theorem firstOccur_snd_lt (sep : List Char) (hs : sep ≠ []) :
    ∀ text a b, firstOccur sep text = some (a, b) → b.length < text.length := by
  intro text a b h
  have heq := firstOccur_eq sep text a b h
  have hlen : text.length = a.length + sep.length + b.length := by
    rw [heq]; simp; omega
  have hsep : 1 ≤ sep.length := by
    cases sep with
    | nil => exact absurd rfl hs
    | cons x xs => simp
  omega

/-! ## Recursive character text splitter

Embedding of `langchain_text_splitters.RecursiveCharacterTextSplitter` as
configured by `RepositoryService.load_and_index_repository`
(`from_language(language, chunk_size=1000, chunk_overlap=200)`, which sets
`keep_separator=True`, `strip_whitespace=True` and the per-language
separator list ending in the empty separator; the separator strings contain
no regex metacharacters, so regex search/split coincide with literal
search/split). -/

/-- Plain split of `text` at each leftmost occurrence of `sep` (separator
removed), mirroring `re.split` on a literal pattern.  The explicit fuel
makes the recursion structural (every step strictly shortens the remaining
text, so `text.length + 1` fuel is always enough). -/
def splitPartsFuel (sep : List Char) : Nat → List Char → List (List Char)
  | 0, text => [text]
  | fuel + 1, text =>
      match firstOccur sep text with
      | none => [text]
      | some p => p.1 :: splitPartsFuel sep fuel p.2

/-- Plain split at every occurrence of a nonempty separator. -/
def splitParts (sep : List Char) (text : List Char) : List (List Char) :=
  splitPartsFuel sep (text.length + 1) text

/-- Split with `keep_separator=True`: every piece after the first is
re-prefixed with the separator (`_split_text_with_regex`), and for the empty
separator the text is split into single characters. -/
def splitKeep (sep : List Char) (text : List Char) : List (List Char) :=
  if sep = [] then text.map (fun c => [c])
  else
    match splitParts sep text with
    | [] => []
    | p :: ps => p :: ps.map (fun q => sep ++ q)

/-- Final split list with empty pieces filtered out, as in
`_split_text_with_regex`'s trailing `[s for s in splits if s != ""]`. -/
def splitWithSep (sep : List Char) (text : List Char) : List (List Char) :=
  (splitKeep sep text).filter (fun s => !s.isEmpty)

/-- Separator selection of `_split_text`: scan the configured list, stop at
the empty separator or at the first separator occurring in the text (keeping
the remaining separators for recursion); default to the last separator with
no remaining ones. -/
def chooseSep : List (List Char) → List Char → List Char × List (List Char)
  | [], _ => ([], [])
  | [s], _ => (s, [])
  | s :: rest, text =>
      if s = [] then ([], [])
      else if containsSub s text then (s, rest)
      else chooseSep rest text

/-- Overlap window trimming loop of `_merge_splits` (the inner `while`):
pop leading pieces while the running total exceeds the overlap, or while
adding the next piece would exceed the chunk size. -/
def popWhile (cs ov sepLen dLen : Nat) : List (List Char) → Nat → List (List Char) × Nat
  | [], total => ([], total)
  | d :: rest, total =>
      if total > ov ∨ (total + dLen + (if rest.length > 0 then sepLen else 0) > cs ∧ total > 0) then
        popWhile cs ov sepLen dLen rest (total - (d.length + if rest.length > 0 then sepLen else 0))
      else (d :: rest, total)

/-- Joining step `_join_docs`: join with the separator, strip whitespace,
drop the chunk when nothing remains. -/
def joinDocs (sep : List Char) (docs : List (List Char)) : Option (List Char) :=
  let text := stripPy (List.intercalate sep docs)
  if text = [] then none else some text

/-- Optional chunk as a list (appending a joined doc when it is not `none`). -/
def joinDocsList (sep : List Char) (docs : List (List Char)) : List (List Char) :=
  (joinDocs sep docs).elim [] (fun d => [d])

/-- Main loop of `_merge_splits`: accumulate pieces into `cur` (running
length `total`), emitting a joined chunk and trimming back to the overlap
whenever the next piece would overflow the chunk size. -/
def mergeGo (cs ov : Nat) (sep : List Char) :
    List (List Char) → List (List Char) → Nat → List (List Char) → List (List Char)
  | docs, cur, _total, [] => docs ++ joinDocsList sep cur
  | docs, cur, total, d :: ds =>
      let L := d.length
      if total + L + (if cur.length > 0 then sep.length else 0) > cs then
        let docs2 := if cur.length > 0 then docs ++ joinDocsList sep cur else docs
        let pr := if cur.length > 0 then popWhile cs ov sep.length L cur total else (cur, total)
        mergeGo cs ov sep docs2 (pr.1 ++ [d])
          (pr.2 + L + (if pr.1.length > 0 then sep.length else 0)) ds
      else
        mergeGo cs ov sep docs (cur ++ [d])
          (total + L + (if cur.length > 0 then sep.length else 0)) ds

/-- Chunk merging `_merge_splits` (called with the empty join separator,
since `keep_separator=True` re-attaches separators to the pieces). -/
def mergeSplits (cs ov : Nat) (sep : List Char) (splits : List (List Char)) : List (List Char) :=
  mergeGo cs ov sep [] [] 0 splits

/-- Merge of the pending good splits, guarded as in the source
(`if _good_splits:`; merging an empty list would yield no chunks anyway). -/
def mergeGood (cs ov : Nat) (sep : List Char) (good : List (List Char)) : List (List Char) :=
  if good = [] then [] else mergeSplits cs ov sep good

/-- Piece loop of `_split_text`: short pieces are collected into
`good` and merged; a piece at or above the chunk size flushes the pending
merge and is either recursed into (when separators remain) or emitted
whole. -/
def processSplits (cs ov : Nat) (sep : List Char) (recur : Option (List Char → List (List Char))) :
    List (List Char) → List (List Char) → List (List Char)
  | good, [] => mergeGood cs ov sep good
  | good, s :: ss =>
      if s.length < cs then processSplits cs ov sep recur (good ++ [s]) ss
      else
        mergeGood cs ov sep good
          ++ (match recur with
              | none => [s]
              | some f => f s)
          ++ processSplits cs ov sep recur [] ss

/-- Recursive `_split_text`, with explicit fuel bounding the recursion depth
(each recursive call uses a strictly shorter separator list, so fuel equal to
the number of separators suffices and the fuel-exhausted branch is
unreachable). -/
def splitTextFuel (cs ov : Nat) : Nat → List (List Char) → List Char → List (List Char)
  | 0, _, text => [text]
  | fuel + 1, seps, text =>
      let p := chooseSep seps text
      let splits := splitWithSep p.1 text
      let recur : Option (List Char → List (List Char)) :=
        if p.2 = [] then none else some (fun s => splitTextFuel cs ov fuel p.2 s)
      processSplits cs ov [] recur [] splits

/-- Public `split_text` of the recursive splitter. -/
def splitText (cs ov : Nat) (seps : List (List Char)) (text : List Char) : List (List Char) :=
  splitTextFuel cs ov seps.length seps text

/-! ## Language selection (`Language` enum values reachable from the service) -/

inductive PLLang
  | python | js | ts | java | cpp | go | ruby
deriving DecidableEq

/-- Separator lists of `RecursiveCharacterTextSplitter.get_separators_for_language`
for the languages reachable from the service's `language_map`. -/
def sepsFor (l : PLLang) : List String :=
  match l with
  | .python => ["\nclass ", "\ndef ", "\n\tdef ", "\n\n", "\n", " ", ""]
  | .js => ["\nfunction ", "\nconst ", "\nlet ", "\nvar ", "\nclass ", "\nif ", "\nfor ",
            "\nwhile ", "\nswitch ", "\ncase ", "\ndefault ", "\n\n", "\n", " ", ""]
  | .ts => ["\nenum ", "\ninterface ", "\nnamespace ", "\ntype ", "\nclass ", "\nfunction ",
            "\nconst ", "\nlet ", "\nvar ", "\nif ", "\nfor ", "\nwhile ", "\nswitch ",
            "\ncase ", "\ndefault ", "\n\n", "\n", " ", ""]
  | .java => ["\nclass ", "\npublic ", "\nprotected ", "\nprivate ", "\nstatic ", "\nif ",
              "\nfor ", "\nwhile ", "\nswitch ", "\ncase ", "\n\n", "\n", " ", ""]
  | .cpp => ["\nclass ", "\nvoid ", "\nint ", "\nfloat ", "\ndouble ", "\nif ", "\nfor ",
             "\nwhile ", "\nswitch ", "\ncase ", "\n\n", "\n", " ", ""]
  | .go => ["\nfunc ", "\nvar ", "\nconst ", "\ntype ", "\nif ", "\nfor ", "\nswitch ",
            "\ncase ", "\n\n", "\n", " ", ""]
  | .ruby => ["\ndef ", "\nclass ", "\nif ", "\nunless ", "\nwhile ", "\nfor ", "\ndo ",
              "\nbegin ", "\nrescue ", "\n\n", "\n", " ", ""]

/-- Separator lists as character lists. -/
def sepsForL (l : PLLang) : List (List Char) :=
  (sepsFor l).map String.data

/-- Default separators of a plain `RecursiveCharacterTextSplitter()` (the
generic splitter, used for comparison with the spec's defaulting claim). -/
def genericSeparators : List (List Char) :=
  (["\n\n", "\n", " ", ""] : List String).map String.data

/-- The service's `language_map` literal. -/
def language_map : List (String × PLLang) :=
  [(".py", .python), (".js", .js), (".jsx", .js),
   (".ts", .ts), (".tsx", .ts), (".java", .java),
   (".cpp", .cpp), (".c", .cpp), (".go", .go), (".rb", .ruby)]

/-- Assoc lookup used for `ext in language_map` / `language_map[ext]`. -/
def lookupLang (ext : String) : Option PLLang :=
  (language_map.find? (fun p => p.1 = ext)).map (fun p => p.2)

/-- Language selection loop of `load_and_index_repository`:
`language = Language.PYTHON`, then the first extension present in
`language_map` wins (`break`). -/
def chooseLanguage : List String → PLLang
  | [] => .python
  | e :: rest =>
      match lookupLang e with
      | some l => l
      | none => chooseLanguage rest

/-! ## Data model of the build pipeline (`RepositoryService`) -/

/-- Document as produced by `GitLoader.load()`: file path within the repo
(`source` metadata) plus file content. -/
structure Document where
  source : String
  content : List Char
deriving DecidableEq

/-- Entry of a persisted Chroma collection: chunk text plus its `source`
metadata (absent only for documents lacking the metadata key). -/
structure IndexEntry where
  content : List Char
  metaSource : Option String
deriving DecidableEq

/-- State of the persisted vector stores: the collection stored under each
`persist_directory` path. -/
def StoreMap := String → List IndexEntry

/-- Outcomes of the external calls made by `load_and_index_repository`:
the clone/load (its error message when the clone raises), and whether the
embedding-model construction and the Chroma embed-and-persist call raise. -/
structure BuildEnv where
  cloneResult : Except String (List Document)
  embedOk : Bool
  persistOk : Bool

inductive BuildResult
  | ok (file_count chunk_count : Nat) (vector_store_path : String)
  | err (error : String)
deriving DecidableEq

/-- The loader's `file_filter`: `any(file_path.endswith(ext) for ext in file_extensions)`. -/
def file_filter (file_extensions : List String) (file_path : String) : Bool :=
  file_extensions.any (fun ext => ext.data.isSuffixOf file_path.data)

/-- Persist directory: `os.path.join(settings.VECTOR_STORE_PATH, f"repo_{repo_id}")`. -/
def vectorStorePath (root : String) (repo_id : Nat) : String :=
  root ++ "/repo_" ++ toString repo_id

/-- Chunking of the loaded documents: `split_documents` produces, per
document in order, the chunks of its content with the document's metadata
copied onto each chunk. -/
def splitDocuments (cs ov : Nat) (seps : List (List Char)) (docs : List Document) : List Document :=
  docs.flatMap (fun d => (splitText cs ov seps d.content).map (fun c => Document.mk d.source c))

/-- Body of the `try:` block of `load_and_index_repository` (everything
between `mkdtemp` and the success return).  `Except.error` models a raised
exception propagating to the `except` clause; `Except.ok` carries the
returned dict together with the updated store state.  `Chroma.from_documents`
on an existing persist directory opens the existing collection and adds the
new documents under fresh ids, so the store update appends. -/
def buildBody (env : BuildEnv) (root : String) (file_extensions : List String)
    (repo_id : Nat) (stores : StoreMap) : Except String (BuildResult × StoreMap) :=
  match env.cloneResult with
  | .error e => .error e
  | .ok files =>
      let documents := files.filter (fun d => file_filter file_extensions d.source)
      if documents.isEmpty then
        .ok (.err "No files found matching the selected extensions", stores)
      else
        let language := chooseLanguage file_extensions
        let splits := splitDocuments 1000 200 (sepsForL language) documents
        if !env.embedOk then .error "embedding failure"
        else if !env.persistOk then .error "persistence failure"
        else
          let path := vectorStorePath root repo_id
          let entries := splits.map (fun d => IndexEntry.mk d.content (some d.source))
          let stores2 : StoreMap := fun p => if p = path then stores p ++ entries else stores p
          .ok (.ok documents.length splits.length path, stores2)

/-- The full `load_and_index_repository`, threading the set of existing
temporary directories: `mkdtemp` allocates a fresh directory, the
`except Exception` clause turns any raised exception into a failure dict,
and the single `finally` clause removes the temporary directory on every
path before the function returns. -/
def load_and_index_repository (env : BuildEnv) (root : String)
    (file_extensions : List String) (repo_id : Nat) (stores : StoreMap)
    (fs : List Nat) : BuildResult × StoreMap × List Nat :=
  let temp_dir := fs.foldr max 0 + 1
  let fs1 := temp_dir :: fs
  let res : BuildResult × StoreMap :=
    match buildBody env root file_extensions repo_id stores with
    | .ok r => r
    | .error e => (.err e, stores)
  (res.1, res.2, fs1.erase temp_dir)

/-! ## Chat pipeline (`ChatService.get_response`) -/

/-- Chat turn as handed to the service (`{'role': ..., 'content': ...}`). -/
structure ChatTurn where
  role : String
  content : String
deriving DecidableEq

/-- LangChain message objects built from the history. -/
inductive ChatMsg
  | human (content : String)
  | ai (content : String)
deriving DecidableEq

/-- History conversion loop of `get_response`: a turn with role `'user'`
becomes a `HumanMessage`, any other turn an `AIMessage`, appended in input
order. -/
def formatHistory (chat_history : List ChatTurn) : List ChatMsg :=
  chat_history.foldl
    (fun acc msg =>
      acc ++ [if msg.role = "user" then ChatMsg.human msg.content else ChatMsg.ai msg.content])
    []

/-- Context document returned to the caller (content preview plus source). -/
structure ContextDoc where
  content : List Char
  source : String
deriving DecidableEq

/-- Outcomes of the external calls made by `get_response`: the similarity
score the embedder assigns each stored entry for the question (higher is
more similar), and the outcome of the chain's language-model invocation,
which receives the converted history. -/
structure ChatEnv where
  score : IndexEntry → Nat
  llm : List ChatMsg → Except String String

inductive ChatResult
  | ok (answer : String) (context : List ContextDoc)
  | err (error : String)
deriving DecidableEq

/-- Stable descending insertion by score (ties keep the earlier entry first). -/
def insertByScore (score : IndexEntry → Nat) (e : IndexEntry) :
    List IndexEntry → List IndexEntry
  | [] => [e]
  | x :: xs => if score x ≤ score e then e :: x :: xs else x :: insertByScore score e xs

/-- Stable descending sort by score: the similarity ordering of the vector
store's nearest-neighbour search. -/
def sortByScore (score : IndexEntry → Nat) : List IndexEntry → List IndexEntry
  | [] => []
  | e :: es => insertByScore score e (sortByScore score es)

/-- Retriever with `search_kwargs={"k": 3}`: the `k` stored entries most
similar to the query, most similar first (stable in insertion order). -/
def retrieveTopK (score : IndexEntry → Nat) (entries : List IndexEntry) (k : Nat) :
    List IndexEntry :=
  (sortByScore score entries).take k

/-- The `get_response` pipeline: convert the history, invoke the retrieval
chain (any raised exception becomes a failure dict), then re-run the
retriever and build the context list from `retrieved_docs[:3]` with
`doc.page_content[:500]` and `doc.metadata.get('source', 'Unknown')`. -/
def get_response (env : ChatEnv) (_question : String) (vector_store_path : String)
    (chat_history : List ChatTurn) (stores : StoreMap) : ChatResult :=
  let formatted_history := formatHistory chat_history
  match env.llm formatted_history with
  | .error e => .err e
  | .ok response =>
      let retrieved_docs := retrieveTopK env.score (stores vector_store_path) 3
      let context_docs := (retrieved_docs.take 3).map
        (fun doc => ContextDoc.mk (doc.content.take 500) (doc.metaSource.getD "Unknown"))
      .ok response context_docs

/-! ## GitHub services (`GitHubService`) -/

/-- Comment of an issue as returned by the tracker. -/
structure IssueComment where
  user : String
  body : String
  created_at : String
deriving DecidableEq

/-- Issue as returned by `repo.get_issue`.  The `comments` field is the
comment list in the order the tracker returns it (ascending creation time,
oldest first); `commentsCount` is the `comments` count field of the issue. -/
structure RemoteIssue where
  title : String
  number : Nat
  state : String
  body : Option String
  labels : List String
  commentsCount : Nat
  html_url : String
  user : String
  created_at : String
  updated_at : String
  comments : List IssueComment
deriving DecidableEq

/-- Outcomes of the external calls of `analyze_issue`: the issue fetch
(error when `get_repo`/`get_issue` raises, e.g. for a nonexistent issue) and
the model invocation as a function of the prompt it receives. -/
structure AnalyzeEnv where
  issueResult : Except String RemoteIssue
  llm : String → Except String String

/-- Python `x or default` on an optional string field (`None` and the empty
string are both falsy). -/
def pyOrStr (v : Option String) (d : String) : String :=
  match v with
  | none => d
  | some s => if s = "" then d else s

/-- Labels line of the prompt: `', '.join(labels) if labels else 'None'`. -/
def labelsText (labels : List String) : String :=
  if labels.isEmpty then "None" else String.intercalate ", " labels

/-- The analysis prompt f-string, assembled from the already-truncated body. -/
def analysisPrompt (title body1000 labelsTxt state : String) : String :=
  "Analyze this GitHub issue and provide:\n1. A brief summary of the problem\n2. Possible root causes\n3. Suggested solutions or next steps\n4. Priority level (High/Medium/Low)\n\nIssue Title: "
    ++ title ++ "\nIssue Body: " ++ body1000 ++ "\nLabels: " ++ labelsTxt
    ++ "\nState: " ++ state

/-- The `issue_data` dict on the success path of `analyze_issue`. -/
structure IssueData where
  title : String
  number : Nat
  state : String
  body : String
  labels : List String
  comments_count : Nat
  url : String
  user : String
  created_at : String
  updated_at : String
  comments : List IssueComment
  ai_analysis : String
deriving DecidableEq

inductive AnalyzeResult
  | ok (data : IssueData)
  | err (error : String)
deriving DecidableEq

/-- Python `str` slice `s[:n]` as a character-list truncation on `String`. -/
def strTake (s : String) (n : Nat) : String :=
  String.mk (s.data.take n)

/-- The `analyze_issue` pipeline: fetch the issue, build `issue_data`
(body defaulted when falsy), keep `get_comments()[:5]` (the first five
comments in the tracker's order), prompt the model with the body truncated
to `[:1000]`, and attach the analysis; any raised exception (fetch or model
call) becomes a failure dict. -/
def analyze_issue (env : AnalyzeEnv) (_repo_name : String) (_issue_number : Nat) :
    AnalyzeResult :=
  match env.issueResult with
  | .error e => .err e
  | .ok issue =>
      let body := pyOrStr issue.body "No description provided"
      let comments := issue.comments.take 5
      let prompt := analysisPrompt issue.title (strTake body 1000)
        (labelsText issue.labels) issue.state
      match env.llm prompt with
      | .error e => .err e
      | .ok analysis =>
          .ok ⟨issue.title, issue.number, issue.state, body, issue.labels,
               issue.commentsCount, issue.html_url, issue.user, issue.created_at,
               issue.updated_at, comments, analysis⟩

/-- Issue entry appended by `search_issues`. -/
structure IssueOut where
  number : Nat
  title : String
  state : String
  labels : List String
  created_at : String
  comments : Nat
  url : String
deriving DecidableEq

/-- Lowercasing of Python `str.lower` (character-wise). -/
def lowerText (t : List Char) : List Char :=
  t.map Char.toLower

/-- Python `str.split()` with no argument: split on runs of whitespace,
producing no empty words (fuel-based structural recursion; each step
strictly shortens the text). -/
def pyWordsFuel : Nat → List Char → List (List Char)
  | 0, _ => []
  | fuel + 1, t =>
      match t with
      | [] => []
      | c :: rest =>
          if pyIsSpace c then pyWordsFuel fuel rest
          else (c :: rest.takeWhile (fun x => !pyIsSpace x))
                :: pyWordsFuel fuel (rest.dropWhile (fun x => !pyIsSpace x))

/-- Python `str.split()` with no argument. -/
def pyWords (t : List Char) : List (List Char) :=
  pyWordsFuel (t.length + 1) t

/-- Keyword filter of the `search_issues` loop: with a truthy `keywords`
string, keep the issue only when some lowercased whitespace-separated
keyword occurs in the lowercased `f"{title} {body or ''}"`. -/
def issueMatches (keywords : String) (issue : RemoteIssue) : Bool :=
  if keywords = "" then true
  else
    let keyword_list := pyWords (lowerText keywords.data)
    let issue_text := lowerText (issue.title ++ " " ++ pyOrStr issue.body "").data
    keyword_list.any (fun kw => containsSub kw issue_text)

/-- Loop of `search_issues` over the issue stream the tracker returns for
the requested state and labels: stop as soon as the accumulated list reaches
`max_results`, skip issues failing the keyword filter, append the rest. -/
def searchLoop (keywords : String) (max_results : Nat) :
    List RemoteIssue → List IssueOut → List IssueOut
  | [], acc => acc
  | issue :: rest, acc =>
      if acc.length ≥ max_results then acc
      else if !issueMatches keywords issue then searchLoop keywords max_results rest acc
      else
        searchLoop keywords max_results rest
          (acc ++ [⟨issue.number, issue.title, issue.state, issue.labels,
                    issue.created_at, issue.commentsCount, issue.html_url⟩])

/-- The `search_issues` pipeline, over the stream of issues the tracker
yields for the given repository, state and labels. -/
def search_issues (issues : List RemoteIssue) (keywords : String) (max_results : Nat) :
    List IssueOut :=
  searchLoop keywords max_results issues []

/-! ## Concrete instances used by counterexamples and witnesses -/

/-- Concrete issue used to exercise `analyze_issue` when the model call
fails: the fetch succeeds, the model raises. -/
def c3Issue : RemoteIssue :=
  ⟨"Crash on start", 7, "open", some "It crashes.", ["bug"], 0,
   "http://x", "alice", "2024-01-01", "2024-01-02", []⟩

def c3Env : AnalyzeEnv := ⟨.ok c3Issue, fun _ => .error "boom"⟩

/-- Concrete issue with six comments, `c1` the oldest and `c6` the most
recent (the tracker returns them oldest first). -/
def c6Issue : RemoteIssue :=
  ⟨"Bug", 3, "open", some "text", [], 6, "http://y", "bob", "t0", "t9",
   [⟨"u", "c1", "t1"⟩, ⟨"u", "c2", "t2"⟩, ⟨"u", "c3", "t3"⟩,
    ⟨"u", "c4", "t4"⟩, ⟨"u", "c5", "t5"⟩, ⟨"u", "c6", "t6"⟩]⟩

def c6Env : AnalyzeEnv := ⟨.ok c6Issue, fun _ => .ok "analysis"⟩

/-- Root path standing for `settings.VECTOR_STORE_PATH`. -/
def vsRoot : String := "vector_stores"

def emptyStores : StoreMap := fun _ => []

/-- First build: repo id 1, one matching file `a.py` with content `alpha`. -/
def build1 : BuildResult × StoreMap × List Nat :=
  load_and_index_repository ⟨.ok [⟨"a.py", "alpha".data⟩], true, true⟩ vsRoot
    [".py"] 1 emptyStores []

def storesAfter1 : StoreMap := build1.2.1

/-- Second build of the same repo id, now with one file `b.py` of content
`beta`. -/
def build2 : BuildResult × StoreMap × List Nat :=
  load_and_index_repository ⟨.ok [⟨"b.py", "beta".data⟩], true, true⟩ vsRoot
    [".py"] 1 storesAfter1 []

def storesAfter2 : StoreMap := build2.2.1

/-- Chat environment whose embedder scores every entry equally and whose
model call succeeds. -/
def c2ChatEnv : ChatEnv := ⟨fun _ => 0, fun _ => .ok "answer"⟩

/-- Store with a single entry, for exercising the query pipeline. -/
def c7Stores : StoreMap :=
  fun p => if p = "vector_stores/repo_9" then [⟨"hello".data, some "h.py"⟩] else []

def c7Env : ChatEnv := ⟨fun _ => 5, fun _ => .ok "hi"⟩

/-! ## General lemmas -/

theorem foldl_append_singleton {α β : Type} (f : α → β) :
    ∀ (l : List α) (acc : List β),
      l.foldl (fun a x => a ++ [f x]) acc = acc ++ l.map f := by
  intro l
  induction l with
  | nil => intro acc; simp
  | cons x xs ih => intro acc; simp [List.foldl_cons, ih]

theorem searchLoop_of_ge (keywords : String) (max_results : Nat)
    (issues : List RemoteIssue) (acc : List IssueOut)
    (h : max_results ≤ acc.length) :
    searchLoop keywords max_results issues acc = acc := by
  cases issues with
  | nil => rfl
  | cons i rest =>
      rw [searchLoop]
      rw [if_pos h]

theorem searchLoop_length_le (keywords : String) (max_results : Nat) :
    ∀ (issues : List RemoteIssue) (acc : List IssueOut),
      acc.length ≤ max_results →
      (searchLoop keywords max_results issues acc).length ≤ max_results := by
  intro issues
  induction issues with
  | nil => intro acc h; simpa [searchLoop] using h
  | cons i rest ih =>
      intro acc h
      rw [searchLoop]
      by_cases hge : acc.length ≥ max_results
      · rw [if_pos hge]; exact h
      · rw [if_neg hge]
        by_cases hm : !issueMatches keywords i
        · rw [if_pos hm]; exact ih acc h
        · rw [if_neg hm]
          exact ih _ (by simp; omega)

theorem searchLoop_append_of_cap (keywords : String) (max_results : Nat)
    (more : List RemoteIssue) :
    ∀ (issues : List RemoteIssue) (acc : List IssueOut),
      (searchLoop keywords max_results issues acc).length = max_results →
      searchLoop keywords max_results (issues ++ more) acc =
        searchLoop keywords max_results issues acc := by
  intro issues
  induction issues with
  | nil =>
      intro acc h
      rw [List.nil_append]
      exact searchLoop_of_ge keywords max_results more acc (Nat.le_of_eq h.symm)
  | cons i rest ih =>
      intro acc h
      by_cases hge : acc.length ≥ max_results
      · rw [searchLoop_of_ge keywords max_results (i :: rest ++ more) acc hge,
            searchLoop_of_ge keywords max_results (i :: rest) acc hge]
      · simp only [searchLoop, if_neg hge] at h
        simp only [List.cons_append, searchLoop, if_neg hge]
        by_cases hm : (!issueMatches keywords i) = true
        · simp only [if_pos hm] at h ⊢
          exact ih acc h
        · simp only [if_neg hm] at h ⊢
          exact ih _ h

/-! ## Claim theorems -/

/-- C1: when the clone succeeds but zero files match the requested extension
filter, `load_and_index_repository` returns the failure dict (the
`FetchError` of the spec), not a success, and the persisted stores are
untouched. -/
theorem claim_build_empty_filter_fails (env : BuildEnv) (root : String)
    (exts : List String) (repo_id : Nat) (stores : StoreMap) (fs : List Nat)
    (files : List Document)
    (hclone : env.cloneResult = .ok files)
    (hempty : files.filter (fun d => file_filter exts d.source) = []) :
    (load_and_index_repository env root exts repo_id stores fs).1 =
      BuildResult.err "No files found matching the selected extensions" ∧
    ∀ p, (load_and_index_repository env root exts repo_id stores fs).2.1 p = stores p := by
  unfold load_and_index_repository buildBody
  rw [hclone]
  simp [hempty]

/-- C1 witness: a clone yielding one `.js` file with a `.py` filter. -/
theorem claim_build_empty_filter_fails_witness :
    (load_and_index_repository ⟨.ok [⟨"app.js", "x".data⟩], true, true⟩ "vs" [".py"] 1
        (fun _ => []) []).1 =
      BuildResult.err "No files found matching the selected extensions" :=
  (claim_build_empty_filter_fails ⟨.ok [⟨"app.js", "x".data⟩], true, true⟩ "vs" [".py"] 1
    (fun _ => []) [] [⟨"app.js", "x".data⟩] rfl (by decide)).1

/-- C9: the temporary clone workspace created by `load_and_index_repository`
is removed before the operation returns, on every exit path (clone failure,
zero matching files, embedding failure, persistence failure, success): the
set of existing temporary directories after the call equals the set before
it. -/
theorem claim_temp_workspace_removed (env : BuildEnv) (root : String)
    (exts : List String) (repo_id : Nat) (stores : StoreMap) (fs : List Nat) :
    (load_and_index_repository env root exts repo_id stores fs).2.2 = fs := by
  unfold load_and_index_repository
  simp [List.erase_cons_head]

/-- C10: the history conversion of `get_response` maps each turn with role
exactly `'user'` to a human message and every turn with any other role to an
assistant message, preserving the input order. -/
theorem claim_history_conversion (chat_history : List ChatTurn) :
    formatHistory chat_history =
      chat_history.map (fun msg =>
        if msg.role = "user" then ChatMsg.human msg.content else ChatMsg.ai msg.content) := by
  unfold formatHistory
  simpa using foldl_append_singleton
    (fun msg : ChatTurn =>
      if msg.role = "user" then ChatMsg.human msg.content else ChatMsg.ai msg.content)
    chat_history []

/-- C5: `search_issues` returns at most `max_results` issues, and once the
cap is reached the result does not depend on any further issues of the
remote stream (the loop short-circuits instead of post-filtering the full
result set). -/
theorem claim_search_issues_cap (issues more : List RemoteIssue) (keywords : String)
    (max_results : Nat) :
    (search_issues issues keywords max_results).length ≤ max_results ∧
    ((search_issues issues keywords max_results).length = max_results →
      search_issues (issues ++ more) keywords max_results =
        search_issues issues keywords max_results) := by
  constructor
  · exact searchLoop_length_le keywords max_results issues [] (by simp)
  · intro hcap
    exact searchLoop_append_of_cap keywords max_results more issues [] hcap

/-- C5 witness: with a cap of 1 and two matching issues, the result has one
entry and appending a third issue to the stream leaves it unchanged. -/
theorem claim_search_issues_cap_witness :
    (search_issues [⟨"t1", 1, "open", none, [], 0, "u1", "a", "d", "d", []⟩,
                    ⟨"t2", 2, "open", none, [], 0, "u2", "a", "d", "d", []⟩] "" 1).length ≤ 1 ∧
    search_issues ([⟨"t1", 1, "open", none, [], 0, "u1", "a", "d", "d", []⟩,
                    ⟨"t2", 2, "open", none, [], 0, "u2", "a", "d", "d", []⟩] ++
                   [⟨"t3", 3, "open", none, [], 0, "u3", "a", "d", "d", []⟩]) "" 1 =
      search_issues [⟨"t1", 1, "open", none, [], 0, "u1", "a", "d", "d", []⟩,
                     ⟨"t2", 2, "open", none, [], 0, "u2", "a", "d", "d", []⟩] "" 1 := by
  refine ⟨(claim_search_issues_cap
    [⟨"t1", 1, "open", none, [], 0, "u1", "a", "d", "d", []⟩,
     ⟨"t2", 2, "open", none, [], 0, "u2", "a", "d", "d", []⟩]
    [⟨"t3", 3, "open", none, [], 0, "u3", "a", "d", "d", []⟩] "" 1).1, ?_⟩
  exact (claim_search_issues_cap
    [⟨"t1", 1, "open", none, [], 0, "u1", "a", "d", "d", []⟩,
     ⟨"t2", 2, "open", none, [], 0, "u2", "a", "d", "d", []⟩]
    [⟨"t3", 3, "open", none, [], 0, "u3", "a", "d", "d", []⟩] "" 1).2 (by decide)

/-! ## Claims about `analyze_issue` (C3, C6) -/

/-- C3 counterexample: the issue exists (the fetch returned it), the model
call fails, and `analyze_issue` returns a total failure carrying only the
error string — no partial success with the fetched metadata. -/
theorem claim_analyze_issue_partial_counterexample :
    c3Env.issueResult = Except.ok c3Issue ∧
    analyze_issue c3Env "octo/repo" 7 = AnalyzeResult.err "boom" := by
  exact ⟨rfl, rfl⟩

/-- C3 amended: when the issue fetch succeeds but the model call fails,
`analyze_issue` returns a total failure containing only the error message;
the fetched issue metadata is discarded, not returned as a partial
success. -/
theorem claim_analyze_issue_llm_failure (env : AnalyzeEnv) (rn : String) (n : Nat)
    (issue : RemoteIssue) (e : String)
    (hissue : env.issueResult = .ok issue)
    (hllm : env.llm (analysisPrompt issue.title
        (strTake (pyOrStr issue.body "No description provided") 1000)
        (labelsText issue.labels) issue.state) = .error e) :
    analyze_issue env rn n = AnalyzeResult.err e := by
  unfold analyze_issue
  rw [hissue]
  simp only [hllm]

/-- C3 witness: the amended theorem applied at a concrete failing
environment. -/
theorem claim_analyze_issue_llm_failure_witness :
    analyze_issue ⟨.ok c3Issue, fun _ => .error "quota"⟩ "octo/repo" 7 =
      AnalyzeResult.err "quota" :=
  claim_analyze_issue_llm_failure ⟨.ok c3Issue, fun _ => .error "quota"⟩
    "octo/repo" 7 c3Issue "quota" rfl rfl

/-- C6 counterexample: on an issue with six comments, `analyze_issue` keeps
the first five (`c1`..`c5`, the oldest), while the five most recent are
`c2`..`c6`; in particular the most recent comment `c6` is absent from the
returned data. -/
theorem claim_analyze_issue_comments_counterexample :
    analyze_issue c6Env "octo/repo" 3 =
      AnalyzeResult.ok ⟨"Bug", 3, "open", "text", [], 6, "http://y", "bob", "t0", "t9",
        [⟨"u", "c1", "t1"⟩, ⟨"u", "c2", "t2"⟩, ⟨"u", "c3", "t3"⟩,
         ⟨"u", "c4", "t4"⟩, ⟨"u", "c5", "t5"⟩], "analysis"⟩ ∧
    c6Issue.comments.reverse.take 5 =
      [⟨"u", "c6", "t6"⟩, ⟨"u", "c5", "t5"⟩, ⟨"u", "c4", "t4"⟩,
       ⟨"u", "c3", "t3"⟩, ⟨"u", "c2", "t2"⟩] ∧
    (⟨"u", "c6", "t6"⟩ : IssueComment) ∉
      [⟨"u", "c1", "t1"⟩, ⟨"u", "c2", "t2"⟩, ⟨"u", "c3", "t3"⟩,
       ⟨"u", "c4", "t4"⟩, (⟨"u", "c5", "t5"⟩ : IssueComment)] := by
  refine ⟨rfl, rfl, ?_⟩
  decide

/-- C6 amended: on every successful analysis, the returned data carries
`get_comments()[:5]` — at most five comments, namely the first five in the
order the tracker returns them (oldest first, not the most recent) — and the
model is prompted with the issue body truncated to its first 1000
characters. -/
theorem claim_analyze_issue_comments_truncation (env : AnalyzeEnv) (rn : String)
    (n : Nat) (issue : RemoteIssue) (d : IssueData)
    (hissue : env.issueResult = .ok issue)
    (hok : analyze_issue env rn n = .ok d) :
    d.comments = issue.comments.take 5 ∧
    d.comments.length ≤ 5 ∧
    env.llm (analysisPrompt issue.title
        (strTake (pyOrStr issue.body "No description provided") 1000)
        (labelsText issue.labels) issue.state) = .ok d.ai_analysis ∧
    (strTake (pyOrStr issue.body "No description provided") 1000).data.length ≤ 1000 := by
  unfold analyze_issue at hok
  rw [hissue] at hok
  simp only [] at hok
  cases hllm : env.llm (analysisPrompt issue.title
      (strTake (pyOrStr issue.body "No description provided") 1000)
      (labelsText issue.labels) issue.state) with
  | error e => rw [hllm] at hok; cases hok
  | ok analysis =>
      rw [hllm] at hok
      cases hok
      refine ⟨rfl, ?_, rfl, ?_⟩
      · simpa using List.length_take_le 5 issue.comments
      · simpa [strTake] using List.length_take_le 1000
          (pyOrStr issue.body "No description provided").data

/-- C6 witness: the amended theorem applied at the six-comment issue. -/
theorem claim_analyze_issue_comments_truncation_witness :
    ((analyze_issue c6Env "octo/repo" 3 = AnalyzeResult.ok
        ⟨"Bug", 3, "open", "text", [], 6, "http://y", "bob", "t0", "t9",
         [⟨"u", "c1", "t1"⟩, ⟨"u", "c2", "t2"⟩, ⟨"u", "c3", "t3"⟩,
          ⟨"u", "c4", "t4"⟩, ⟨"u", "c5", "t5"⟩], "analysis"⟩) ∧
      [⟨"u", "c1", "t1"⟩, ⟨"u", "c2", "t2"⟩, ⟨"u", "c3", "t3"⟩,
       ⟨"u", "c4", "t4"⟩, (⟨"u", "c5", "t5"⟩ : IssueComment)] =
        c6Issue.comments.take 5) ∧
    ([⟨"u", "c1", "t1"⟩, ⟨"u", "c2", "t2"⟩, ⟨"u", "c3", "t3"⟩,
      ⟨"u", "c4", "t4"⟩, (⟨"u", "c5", "t5"⟩ : IssueComment)] : List IssueComment).length ≤ 5 := by
  have h := claim_analyze_issue_comments_truncation c6Env "octo/repo" 3 c6Issue
    ⟨"Bug", 3, "open", "text", [], 6, "http://y", "bob", "t0", "t9",
     [⟨"u", "c1", "t1"⟩, ⟨"u", "c2", "t2"⟩, ⟨"u", "c3", "t3"⟩,
      ⟨"u", "c4", "t4"⟩, ⟨"u", "c5", "t5"⟩], "analysis"⟩ rfl rfl
  exact ⟨⟨rfl, h.1⟩, h.2.1⟩

/-! ## Claims about the query pipeline (C7) and rebuilding (C2) -/

theorem mem_insertByScore (score : IndexEntry → Nat) (e x : IndexEntry) :
    ∀ l, x ∈ insertByScore score e l → x = e ∨ x ∈ l := by
  intro l
  induction l with
  | nil => intro h; simpa [insertByScore] using h
  | cons y ys ih =>
      intro h
      rw [insertByScore] at h
      by_cases hc : score y ≤ score e
      · rw [if_pos hc] at h
        rcases List.mem_cons.mp h with h | h
        · exact Or.inl h
        · exact Or.inr h
      · rw [if_neg hc] at h
        rcases List.mem_cons.mp h with h | h
        · exact Or.inr (by simp [h])
        · rcases ih h with h | h
          · exact Or.inl h
          · exact Or.inr (List.mem_cons_of_mem y h)

theorem mem_sortByScore (score : IndexEntry → Nat) (x : IndexEntry) :
    ∀ l, x ∈ sortByScore score l → x ∈ l := by
  intro l
  induction l with
  | nil => intro h; simpa [sortByScore] using h
  | cons y ys ih =>
      intro h
      rw [sortByScore] at h
      rcases mem_insertByScore score y x (sortByScore score ys) h with h | h
      · simp [h]
      · exact List.mem_cons_of_mem y (ih h)

/-- C7: on every successful answer of the query pipeline, the returned
context has at most 3 entries, each entry's text is the at-most-500-character
truncation of a stored chunk, and each entry carries that chunk's source
identifier (defaulting to `Unknown` only when the chunk has no source
metadata, which the build pipeline always writes). -/
theorem claim_query_context (env : ChatEnv) (q vsp : String) (hist : List ChatTurn)
    (stores : StoreMap) (ans : String) (ctx : List ContextDoc)
    (hok : get_response env q vsp hist stores = .ok ans ctx) :
    ctx.length ≤ 3 ∧
    ∀ c ∈ ctx, c.content.length ≤ 500 ∧
      ∃ e ∈ stores vsp, c.content = e.content.take 500 ∧
        c.source = e.metaSource.getD "Unknown" := by
  unfold get_response at hok
  simp only [] at hok
  cases hllm : env.llm (formatHistory hist) with
  | error e => rw [hllm] at hok; cases hok
  | ok response =>
      rw [hllm] at hok
      cases hok
      constructor
      · rw [List.length_map]
        exact List.length_take_le 3 _
      · intro c hc
        rcases List.mem_map.mp hc with ⟨doc, hdoc, hceq⟩
        have hdoc2 : doc ∈ retrieveTopK env.score (stores vsp) 3 :=
          List.take_subset 3 _ hdoc
        have hdoc3 : doc ∈ sortByScore env.score (stores vsp) :=
          List.take_subset 3 _ hdoc2
        have hdoc4 : doc ∈ stores vsp := mem_sortByScore env.score doc _ hdoc3
        refine ⟨?_, doc, hdoc4, ?_, ?_⟩
        · rw [← hceq]
          simpa using List.length_take_le 500 doc.content
        · rw [← hceq]
        · rw [← hceq]

/-- C7 witness: the theorem applied to a store holding one entry. -/
theorem claim_query_context_witness :
    ([⟨"hello".data, "h.py"⟩] : List ContextDoc).length ≤ 3 :=
  (claim_query_context c7Env "q" "vector_stores/repo_9" [] c7Stores "hi"
    [⟨"hello".data, "h.py"⟩] rfl).1

/-- C2 counterexample: building repo id 1 a second time succeeds, yet a
query against the namespace afterwards still returns the entry written by
the first build (`alpha` from `a.py`) alongside the new one —
`Chroma.from_documents` on the existing persist directory adds to the
collection instead of replacing it. -/
theorem claim_rebuild_counterexample :
    build2.1 = BuildResult.ok 1 1 (vectorStorePath vsRoot 1) ∧
    get_response c2ChatEnv "q" (vectorStorePath vsRoot 1) [] storesAfter2 =
      ChatResult.ok "answer" [⟨"alpha".data, "a.py"⟩, ⟨"beta".data, "b.py"⟩] := by
  exact ⟨rfl, rfl⟩

/-- C2 amended: a successful rebuild of the same repo id appends the new
entries to the existing namespace; every entry present before the rebuild is
still present (and hence retrievable) afterwards. -/
theorem claim_rebuild_appends (env : BuildEnv) (root : String) (exts : List String)
    (repo_id : Nat) (stores : StoreMap) (fs : List Nat) (fc cc : Nat) (p : String)
    (hok : (load_and_index_repository env root exts repo_id stores fs).1 =
      BuildResult.ok fc cc p) :
    ∀ q e, e ∈ stores q →
      e ∈ (load_and_index_repository env root exts repo_id stores fs).2.1 q := by
  intro q e he
  unfold load_and_index_repository at hok ⊢
  simp only [] at hok ⊢
  cases hb : buildBody env root exts repo_id stores with
  | error msg =>
      rw [hb] at hok
      simp only [] at hok
      cases hok
  | ok r =>
      rw [hb] at hok
      simp only [] at hok ⊢
      unfold buildBody at hb
      cases hc : env.cloneResult with
      | error msg => rw [hc] at hb; cases hb
      | ok files =>
          rw [hc] at hb
          simp only [] at hb
          by_cases hie : (files.filter (fun d => file_filter exts d.source)).isEmpty = true
          · rw [if_pos hie] at hb
            cases hb
            simp only [] at hok
            cases hok
          · rw [if_neg hie] at hb
            by_cases hem : (!env.embedOk) = true
            · rw [if_pos hem] at hb; cases hb
            · rw [if_neg hem] at hb
              by_cases hpe : (!env.persistOk) = true
              · rw [if_pos hpe] at hb; cases hb
              · rw [if_neg hpe] at hb
                cases hb
                simp only []
                by_cases hq : q = vectorStorePath root repo_id
                · rw [if_pos hq]
                  exact List.mem_append_left _ he
                · rw [if_neg hq]
                  exact he

/-- C2 amended witness: after the successful second build, the first build's
entry is still in the namespace. -/
theorem claim_rebuild_appends_witness :
    IndexEntry.mk "alpha".data (some "a.py") ∈ storesAfter2 (vectorStorePath vsRoot 1) :=
  claim_rebuild_appends ⟨.ok [⟨"b.py", "beta".data⟩], true, true⟩ vsRoot [".py"] 1
    storesAfter1 [] 1 1 (vectorStorePath vsRoot 1) rfl (vectorStorePath vsRoot 1)
    ⟨"alpha".data, some "a.py"⟩ (by decide)

/-! ## Claim about language selection (C4) -/

/-- C4 counterexample: with a requested extension list having no configured
mapping (`[".md"]`), the pipeline selects `Language.PYTHON` — whose splitter
separators differ from the generic/plain-text splitter's — rather than
defaulting to a generic splitter. -/
theorem claim_language_default_counterexample :
    chooseLanguage [".md"] = PLLang.python ∧
    sepsForL PLLang.python ≠ genericSeparators := by
  exact ⟨rfl, by decide⟩

/-- C4 amended: the chunker's language is the first extension of the
caller-supplied list that has a configured mapping (caller order is the
tie-break), and when no requested extension has a mapping the chunker uses
the Python-language splitter, not a generic/plain-text one. -/
theorem claim_language_selection (exts : List String) :
    (∀ l, exts.findSome? lookupLang = some l → chooseLanguage exts = l) ∧
    (exts.findSome? lookupLang = none → chooseLanguage exts = PLLang.python) := by
  induction exts with
  | nil =>
      refine ⟨?_, ?_⟩
      · intro l h; simp at h
      · intro _; rfl
  | cons e rest ih =>
      refine ⟨?_, ?_⟩
      · intro l h
        rw [List.findSome?_cons] at h
        rw [chooseLanguage]
        cases hl : lookupLang e with
        | some l2 =>
            rw [hl] at h
            simp at h
            simp [h]
        | none =>
            rw [hl] at h
            exact ih.1 l h
      · intro h
        rw [List.findSome?_cons] at h
        rw [chooseLanguage]
        cases hl : lookupLang e with
        | some l2 => rw [hl] at h; cases h
        | none =>
            rw [hl] at h
            exact ih.2 h

/-- C4 witness: `.md` has no mapping, `.go` is the first mapped extension. -/
theorem claim_language_selection_witness :
    chooseLanguage [".md", ".go", ".py"] = PLLang.go :=
  (claim_language_selection [".md", ".go", ".py"]).1 PLLang.go (by decide)

/-! ## Chunker lemmas (C8) -/

theorem splitPartsFuel_ne_nil (sep : List Char) :
    ∀ fuel text, splitPartsFuel sep fuel text ≠ [] := by
  intro fuel text
  cases fuel with
  | zero => simp [splitPartsFuel]
  | succ f =>
      rw [splitPartsFuel]
      cases firstOccur sep text with
      | none => simp
      | some p => simp

theorem splitPartsFuel_glue (sep : List Char) (hs : sep ≠ []) :
    ∀ fuel text, text.length < fuel → ∀ p ps,
      splitPartsFuel sep fuel text = p :: ps →
      p ++ (ps.map (fun q => sep ++ q)).flatten = text := by
  intro fuel
  induction fuel with
  | zero => intro text h; omega
  | succ f ih =>
      intro text hlen p ps hsplit
      rw [splitPartsFuel] at hsplit
      cases hfo : firstOccur sep text with
      | none =>
          rw [hfo] at hsplit
          cases hsplit
          simp
      | some q =>
          rw [hfo] at hsplit
          cases hsplit
          have heq := firstOccur_eq sep text q.1 q.2 (by rw [hfo])
          have hqlen : q.2.length < f := by
            have := firstOccur_snd_lt sep hs text q.1 q.2 (by rw [hfo])
            omega
          cases hrec : splitPartsFuel sep f q.2 with
          | nil => exact absurd hrec (splitPartsFuel_ne_nil sep f q.2)
          | cons r rs =>
              have hglue := ih q.2 hqlen r rs hrec
              rw [heq]
              simp only [List.map_cons, List.flatten_cons]
              rw [← hglue]
              simp [List.append_assoc]

theorem flatten_map_singleton : ∀ t : List Char, (t.map (fun c => [c])).flatten = t := by
  intro t
  induction t with
  | nil => simp
  | cons c rest ih => simp [ih]

theorem flatten_splitKeep (sep text : List Char) : (splitKeep sep text).flatten = text := by
  unfold splitKeep
  by_cases hsep : sep = []
  · rw [if_pos hsep]
    exact flatten_map_singleton text
  · rw [if_neg hsep]
    cases hsp : splitParts sep text with
    | nil => exact absurd hsp (splitPartsFuel_ne_nil sep (text.length + 1) text)
    | cons p ps =>
        simp only [List.flatten_cons]
        exact splitPartsFuel_glue sep hsep (text.length + 1) text (Nat.lt_succ_self _) p ps hsp

theorem flatten_filter_nonempty :
    ∀ l : List (List Char), (l.filter (fun s => !s.isEmpty)).flatten = l.flatten := by
  intro l
  induction l with
  | nil => simp
  | cons s ss ih =>
      by_cases hse : s.isEmpty = true
      · have : s = [] := by simpa [List.isEmpty_iff] using hse
        simp [List.filter_cons, hse, ih, this]
      · simp [List.filter_cons, hse, ih]

theorem flatten_splitWithSep (sep text : List Char) :
    (splitWithSep sep text).flatten = text := by
  unfold splitWithSep
  rw [flatten_filter_nonempty, flatten_splitKeep]

theorem length_le_flatten :
    ∀ (l : List (List Char)) (s : List Char), s ∈ l → s.length ≤ l.flatten.length := by
  intro l
  induction l with
  | nil => intro s h; cases h
  | cons x xs ih =>
      intro s h
      rw [List.flatten_cons, List.length_append]
      rcases List.mem_cons.mp h with h | h
      · rw [h]; omega
      · have := ih s h; omega

theorem mem_splitWithSep_length_le (sep text s : List Char)
    (h : s ∈ splitWithSep sep text) : s.length ≤ text.length := by
  have := length_le_flatten (splitWithSep sep text) s h
  rwa [flatten_splitWithSep] at this

theorem mem_splitWithSep_nil_length (text s : List Char)
    (h : s ∈ splitWithSep [] text) : s.length = 1 := by
  unfold splitWithSep splitKeep at h
  rw [if_pos rfl] at h
  rcases List.mem_filter.mp h with ⟨hmem, _⟩
  rcases List.mem_map.mp hmem with ⟨c, _, hc⟩
  rw [← hc]
  rfl

theorem chooseSep_good :
    ∀ (seps : List (List Char)) (text : List Char),
      seps.getLast? = some [] → (chooseSep seps text).1 ≠ [] →
      (chooseSep seps text).2.getLast? = some [] ∧
      (chooseSep seps text).2.length < seps.length := by
  intro seps
  induction seps with
  | nil => intro text hl; simp at hl
  | cons s rest ih =>
      intro text hl h1
      cases rest with
      | nil =>
          simp at hl
          rw [chooseSep] at h1
          exact absurd hl.symm (by simpa using h1)
      | cons s2 rest2 =>
          rw [List.getLast?_cons_cons] at hl
          rw [chooseSep] at h1 ⊢
          by_cases hse : s = []
          · rw [if_pos hse] at h1
            exact absurd rfl h1
          · rw [if_neg hse] at h1 ⊢
            by_cases hcon : containsSub s text = true
            · rw [if_pos hcon]
              refine ⟨hl, by simp⟩
            · rw [if_neg hcon] at h1 ⊢
              have := ih text hl h1
              exact ⟨this.1, Nat.lt_succ_of_lt this.2⟩
          all_goals simp

theorem intercalate_nil_flatten :
    ∀ l : List (List Char), List.intercalate [] l = l.flatten := by
  intro l
  induction l with
  | nil => simp [List.intercalate]
  | cons x xs ih =>
      cases xs with
      | nil => simp [List.intercalate]
      | cons y ys =>
          rw [List.intercalate, List.intersperse_cons₂]
          rw [List.intercalate] at ih
          simp only [List.flatten_cons]
          rw [ih]
          simp

theorem mem_joinDocsList_length (cur : List (List Char)) (x : List Char)
    (hx : x ∈ joinDocsList [] cur) : x.length ≤ (cur.map List.length).sum := by
  unfold joinDocsList joinDocs at hx
  simp only [] at hx
  by_cases hz : stripPy (List.intercalate [] cur) = []
  · rw [if_pos hz] at hx
    simp at hx
  · rw [if_neg hz] at hx
    simp at hx
    rw [hx]
    calc (stripPy (List.intercalate [] cur)).length
        ≤ (List.intercalate [] cur).length := length_stripPy_le _
      _ = cur.flatten.length := by rw [intercalate_nil_flatten]
      _ = (cur.map List.length).sum := List.length_flatten cur

theorem popWhile_spec (cs ov L : Nat) :
    ∀ (cur : List (List Char)) (total : Nat),
      total = (cur.map List.length).sum →
      (popWhile cs ov 0 L cur total).2 =
          ((popWhile cs ov 0 L cur total).1.map List.length).sum ∧
      ((popWhile cs ov 0 L cur total).2 + L ≤ cs ∨ (popWhile cs ov 0 L cur total).2 = 0) := by
  intro cur
  induction cur with
  | nil =>
      intro total htot
      simp at htot
      simp [popWhile, htot]
  | cons d rest ih =>
      intro total htot
      simp only [List.map_cons, List.sum_cons] at htot
      rw [popWhile]
      simp only [ite_self, Nat.add_zero]
      by_cases hc : total > ov ∨ (total + L > cs ∧ total > 0)
      · rw [if_pos hc]
        apply ih
        omega
      · rw [if_neg hc]
        push_neg at hc
        refine ⟨?_, ?_⟩
        · simp only [List.map_cons, List.sum_cons]
          exact htot
        · simp only []
          omega

theorem mergeGo_bound (cs ov : Nat) :
    ∀ (ds docs cur : List (List Char)) (total : Nat),
      (∀ x ∈ docs, x.length ≤ cs) →
      total = (cur.map List.length).sum →
      total ≤ cs →
      (∀ s ∈ ds, s.length < cs) →
      ∀ x ∈ mergeGo cs ov [] docs cur total ds, x.length ≤ cs := by
  intro ds
  induction ds with
  | nil =>
      intro docs cur total hdocs htot htcs _ x hx
      rw [mergeGo] at hx
      rcases List.mem_append.mp hx with hx | hx
      · exact hdocs x hx
      · have := mem_joinDocsList_length cur x hx
        omega
  | cons d ds ih =>
      intro docs cur total hdocs htot htcs hds x hx
      have hdlen : d.length < cs := hds d (List.mem_cons_self d ds)
      have hds' : ∀ s ∈ ds, s.length < cs := fun s hs => hds s (List.mem_cons_of_mem d hs)
      rw [mergeGo] at hx
      simp only [List.length_nil, ite_self, Nat.add_zero] at hx
      by_cases hov : total + d.length > cs
      · rw [if_pos hov] at hx
        by_cases hcur : cur.length > 0
        · simp only [if_pos hcur] at hx
          obtain ⟨hp1, hp2⟩ := popWhile_spec cs ov d.length cur total htot
          refine ih _ _ _ ?_ ?_ ?_ hds' x hx
          · intro y hy
            rcases List.mem_append.mp hy with hy | hy
            · exact hdocs y hy
            · have := mem_joinDocsList_length cur y hy
              omega
          · simp only [List.map_append, List.sum_append, List.map_cons, List.map_nil,
              List.sum_cons, List.sum_nil, Nat.add_zero]
            omega
          · rcases hp2 with hp2 | hp2 <;> omega
        · simp only [if_neg hcur] at hx
          have hcur0 : cur = [] := by
            cases cur with
            | nil => rfl
            | cons a as => simp at hcur
          subst hcur0
          simp at htot
          refine ih _ _ _ hdocs ?_ ?_ hds' x hx
          · simp [htot]
          · omega
      · rw [if_neg hov] at hx
        refine ih _ _ _ hdocs ?_ ?_ hds' x hx
        · simp only [List.map_append, List.sum_append, List.map_cons, List.map_nil,
            List.sum_cons, List.sum_nil, Nat.add_zero]
          omega
        · omega

theorem mergeSplits_bound (cs ov : Nat) (splits : List (List Char))
    (h : ∀ s ∈ splits, s.length < cs) :
    ∀ x ∈ mergeSplits cs ov [] splits, x.length ≤ cs :=
  mergeGo_bound cs ov splits [] [] 0 (by intro y hy; cases hy) rfl (Nat.zero_le cs) h

theorem mergeGood_bound (cs ov : Nat) (good : List (List Char))
    (h : ∀ s ∈ good, s.length < cs) :
    ∀ x ∈ mergeGood cs ov [] good, x.length ≤ cs := by
  intro x hx
  unfold mergeGood at hx
  by_cases hg : good = []
  · rw [if_pos hg] at hx; cases hx
  · rw [if_neg hg] at hx
    exact mergeSplits_bound cs ov good h x hx

theorem processSplits_bound_short (cs ov : Nat)
    (recur : Option (List Char → List (List Char))) :
    ∀ (splits good : List (List Char)),
      (∀ s ∈ good, s.length < cs) →
      (∀ s ∈ splits, s.length < cs) →
      ∀ x ∈ processSplits cs ov [] recur good splits, x.length ≤ cs := by
  intro splits
  induction splits with
  | nil =>
      intro good hgood _ x hx
      exact mergeGood_bound cs ov good hgood x hx
  | cons s ss ih =>
      intro good hgood hsplits x hx
      have hslen : s.length < cs := hsplits s (List.mem_cons_self s ss)
      rw [processSplits.eq_def] at hx
      simp only [] at hx
      rw [if_pos hslen] at hx
      refine ih (good ++ [s]) ?_ (fun t ht => hsplits t (List.mem_cons_of_mem s ht)) x hx
      intro t ht
      rcases List.mem_append.mp ht with ht | ht
      · exact hgood t ht
      · rw [List.mem_singleton.mp ht]
        exact hslen

theorem processSplits_bound_rec (cs ov : Nat) (f : List Char → List (List Char))
    (hf : ∀ s x, x ∈ f s → x.length ≤ cs) :
    ∀ (splits good : List (List Char)),
      (∀ s ∈ good, s.length < cs) →
      ∀ x ∈ processSplits cs ov [] (some f) good splits, x.length ≤ cs := by
  intro splits
  induction splits with
  | nil =>
      intro good hgood x hx
      exact mergeGood_bound cs ov good hgood x hx
  | cons s ss ih =>
      intro good hgood x hx
      rw [processSplits.eq_def] at hx
      simp only [] at hx
      by_cases hs : s.length < cs
      · rw [if_pos hs] at hx
        refine ih (good ++ [s]) ?_ x hx
        intro t ht
        rcases List.mem_append.mp ht with ht | ht
        · exact hgood t ht
        · rw [List.mem_singleton.mp ht]
          exact hs
      · rw [if_neg hs] at hx
        rcases List.mem_append.mp hx with hx | hx
        · rcases List.mem_append.mp hx with hx | hx
          · exact mergeGood_bound cs ov good hgood x hx
          · exact hf s x hx
        · exact ih [] (fun t ht => absurd ht (List.not_mem_nil t)) x hx

theorem splitTextFuel_bound (cs ov : Nat) (hcs : 2 ≤ cs) :
    ∀ (fuel : Nat) (seps : List (List Char)) (text : List Char),
      seps.length ≤ fuel → seps.getLast? = some [] →
      ∀ x ∈ splitTextFuel cs ov fuel seps text, x.length ≤ cs := by
  intro fuel
  induction fuel with
  | zero =>
      intro seps text hlen hlast
      have hnil : seps = [] := List.length_eq_zero.mp (Nat.le_zero.mp hlen)
      rw [hnil] at hlast
      simp at hlast
  | succ f ih =>
      intro seps text hlen hlast x hx
      rw [splitTextFuel] at hx
      by_cases hp1 : (chooseSep seps text).1 = []
      · rw [hp1] at hx
        refine processSplits_bound_short cs ov _ _ [] ?_ ?_ x hx
        · intro t ht; cases ht
        · intro t ht
          have := mem_splitWithSep_nil_length text t ht
          omega
      · obtain ⟨hlast2, hlen2⟩ := chooseSep_good seps text hlast hp1
        have hne : (chooseSep seps text).2 ≠ [] := by
          intro hcontra
          rw [hcontra] at hlast2
          simp at hlast2
        rw [if_neg hne] at hx
        exact processSplits_bound_rec cs ov _
          (fun s y hy => ih _ s (by omega) hlast2 y hy) _ []
          (fun t ht => absurd ht (List.not_mem_nil t)) x hx

theorem mergeGo_small (cs ov : Nat) :
    ∀ (ds docs cur : List (List Char)) (total : Nat),
      total = (cur.map List.length).sum →
      total + (ds.map List.length).sum ≤ cs →
      mergeGo cs ov [] docs cur total ds = docs ++ joinDocsList [] (cur ++ ds) := by
  intro ds
  induction ds with
  | nil =>
      intro docs cur total _ _
      rw [mergeGo, List.append_nil]
  | cons d ds ih =>
      intro docs cur total htot hle
      rw [mergeGo]
      simp only [List.length_nil, ite_self, Nat.add_zero]
      simp only [List.map_cons, List.sum_cons] at hle
      rw [if_neg (by omega)]
      rw [ih docs (cur ++ [d]) (total + d.length)
        (by simp only [List.map_append, List.sum_append, List.map_cons, List.map_nil,
              List.sum_cons, List.sum_nil, Nat.add_zero]; omega)
        (by omega)]
      rw [List.append_assoc, List.singleton_append]

theorem mergeSplits_small (cs ov : Nat) (splits : List (List Char))
    (h : (splits.map List.length).sum ≤ cs) :
    mergeSplits cs ov [] splits = joinDocsList [] splits := by
  unfold mergeSplits
  rw [mergeGo_small cs ov splits [] [] 0 rfl (by omega)]
  simp

theorem processSplits_small (cs ov : Nat)
    (recur : Option (List Char → List (List Char))) :
    ∀ (splits good : List (List Char)),
      (∀ s ∈ splits, s.length < cs) →
      processSplits cs ov [] recur good splits = mergeGood cs ov [] (good ++ splits) := by
  intro splits
  induction splits with
  | nil =>
      intro good _
      rw [List.append_nil]
      rfl
  | cons s ss ih =>
      intro good hs
      rw [processSplits.eq_def]
      simp only []
      rw [if_pos (hs s (List.mem_cons_self s ss))]
      rw [ih (good ++ [s]) (fun t ht => hs t (List.mem_cons_of_mem s ht))]
      rw [List.append_assoc, List.singleton_append]

theorem splitTextFuel_small (cs ov : Nat) :
    ∀ (f : Nat) (seps : List (List Char)) (text : List Char),
      text.length < cs →
      splitTextFuel cs ov (f + 1) seps text =
        if stripPy text = [] then [] else [stripPy text] := by
  intro f seps text hlen
  rw [splitTextFuel]
  rw [processSplits_small cs ov _ (splitWithSep (chooseSep seps text).1 text) []
    (fun t ht => Nat.lt_of_le_of_lt (mem_splitWithSep_length_le _ text t ht) hlen)]
  rw [List.nil_append]
  by_cases hsp : splitWithSep (chooseSep seps text).1 text = []
  · rw [mergeGood, if_pos hsp]
    have htext : text = [] := by
      have h2 := flatten_splitWithSep (chooseSep seps text).1 text
      rw [hsp] at h2
      exact h2.symm
    rw [htext]
    decide
  · rw [mergeGood, if_neg hsp]
    have hsum : ((splitWithSep (chooseSep seps text).1 text).map List.length).sum ≤ cs := by
      have hfl := List.length_flatten (splitWithSep (chooseSep seps text).1 text)
      rw [flatten_splitWithSep] at hfl
      omega
    rw [mergeSplits_small cs ov _ hsum]
    unfold joinDocsList joinDocs
    simp only []
    rw [intercalate_nil_flatten, flatten_splitWithSep]
    by_cases hstrip : stripPy text = []
    · rw [if_pos hstrip, if_pos hstrip]
      rfl
    · rw [if_neg hstrip, if_neg hstrip]
      rfl

theorem sepsForL_getLast (lang : PLLang) : (sepsForL lang).getLast? = some [] := by
  cases lang <;> rfl

/-- C8 counterexample: the single-space document is shorter than the overlap
length (200), yet chunking it produces zero chunks, not exactly one — the
splitter strips whitespace and drops empty chunks. -/
theorem claim_chunk_short_counterexample :
    " ".data.length < 200 ∧
    splitText 1000 200 (sepsForL PLLang.python) " ".data = [] := by
  exact ⟨by decide, by decide⟩

/-- C8 amended: every chunk the pipeline produces (for any of the
configurable languages) has length at most the maximum chunk length 1000,
and every document whose content is shorter than the overlap length 200 and
is not pure whitespace produces exactly one chunk, namely its
whitespace-stripped content (whitespace-only or empty documents produce no
chunk at all). -/
theorem claim_chunk_bounds (lang : PLLang) (docs : List Document) (d : Document) :
    (∀ c ∈ splitDocuments 1000 200 (sepsForL lang) docs, c.content.length ≤ 1000) ∧
    (d.content.length < 200 → stripPy d.content ≠ [] →
      splitText 1000 200 (sepsForL lang) d.content = [stripPy d.content]) := by
  constructor
  · intro c hc
    unfold splitDocuments at hc
    rcases List.mem_flatMap.mp hc with ⟨doc, _, hcm⟩
    rcases List.mem_map.mp hcm with ⟨chunk, hchunk, hceq⟩
    have hb := splitTextFuel_bound 1000 200 (by omega) (sepsForL lang).length
      (sepsForL lang) doc.content (Nat.le_refl _) (sepsForL_getLast lang) chunk hchunk
    rw [← hceq]
    exact hb
  · intro hlen hstrip
    unfold splitText
    have hpos : 0 < (sepsForL lang).length := by cases lang <;> decide
    cases hsl : (sepsForL lang).length with
    | zero => omega
    | succ f =>
        rw [splitTextFuel_small 1000 200 f (sepsForL lang) d.content (by omega)]
        rw [if_neg hstrip]

/-- C8 witness: a two-character Python document yields exactly the one
stripped chunk, shorter than 1000. -/
theorem claim_chunk_bounds_witness :
    splitText 1000 200 (sepsForL PLLang.python) "hi".data = [stripPy "hi".data] :=
  (claim_chunk_bounds PLLang.python [] ⟨"h.py", "hi".data⟩).2 (by decide) (by decide)
